import Mathlib

/-
Verification of the vibeChess engine-orchestration and analysis-navigation
core against its natural-language specification.

The TypeScript sources embedded here:
  - engineHelpers.ts: clamp, computeSkillLevel, computeBlunderProbability, uciToSan
  - chessHelpers.ts: sanitizeVerboseHistory, buildAnalysisEntriesFromVerbose
  - App.tsx: pickMoveWithBlunder, requestMultiSuggestions, loadAnalysisSuggestions
    and the engine worker onmessage dispatcher.

Modelling conventions:
  - JS numbers are modelled as rationals (ℚ); integer-valued results as ℤ.
  - The chess.js rules collaborator is out of scope per the spec; it is an
    abstract parameter (structure ChessApi).  A chess.js call that either
    returns null or throws on an illegal move is modelled as returning none.
  - The single-threaded cooperative concurrency of loadAnalysisSuggestions is
    modelled as a labelled transition system: each in-flight call is a process
    whose program counter sits at one of the await points of the source; an
    action resumes one suspension (or delivers one engine line) and runs the
    continuation up to the next await, exactly as the JS microtask model does.
-/

/-! ## engineHelpers.ts -/

/-- `clamp = (v, min, max) => Math.min(max, Math.max(min, v))` -/
def clamp (v mn mx : ℚ) : ℚ := min mx (max mn v)

/-- JS `Math.round`: round half toward positive infinity, `⌊x + 0.5⌋`. -/
def jsRound (x : ℚ) : ℤ := ⌊x + 1/2⌋

/-- `computeSkillLevel = (elo) => clamp(Math.round(((elo - 600) / (2800 - 600)) * 20), 0, 20)` -/
def computeSkillLevel (elo : ℚ) : ℚ :=
  clamp ((jsRound ((elo - 600) / (2800 - 600) * 20) : ℤ) : ℚ) 0 20

/-- `computeBlunderProbability`: 0.02 for elo ≥ 1600, else 0.05 + t * 0.75 with
`t = clamp((1600 - elo) / 1000, 0, 1)`. -/
def computeBlunderProbability (elo : ℚ) : ℚ :=
  if 1600 ≤ elo then 0.02
  else
    0.05 + clamp ((1600 - elo) / 1000) 0 1 * 0.75

/-! ## The rules collaborator (chess.js), abstract

The spec treats board/move legality and SAN/FEN generation as an external
collaborator.  `ChessApi` is its interface: `parse` models `new Chess(fen)`
(none = constructor threw on an invalid FEN), `move` models `chess.move(...)`
(none = illegal move, covering both a null return and a thrown exception),
`fen`, `turn` and `moves` model the homonymous chess.js queries. -/

/-- The `{from, to, promotion}` object passed to `chess.move`. -/
structure MoveInput where
  fromSq : String
  toSq : String
  promotion : Option String
  deriving DecidableEq

/-- The chess.js `Move` fields this core reads back from an applied move. -/
structure MoveRes where
  san : String
  fromSq : String
  toSq : String
  promotion : Option String
  deriving DecidableEq

structure ChessApi (σ : Type) where
  initial : σ
  parse : String → Option σ
  move : σ → MoveInput → Option (MoveRes × σ)
  fen : σ → String
  turn : σ → Char
  moves : σ → List MoveRes

/-- `uci.slice(a, b)` on a string. -/
def sliceStr (s : String) (a b : Nat) : String :=
  String.mk ((s.data.drop a).take (b - a))

/-- `uci[4]` as an optional one-character string. -/
def charAt (s : String) (i : Nat) : Option String :=
  (s.data.get? i).map (fun c => String.mk [c])

/-- The move-input object `uciToSan` builds from a UCI token:
`{from: uci.slice(0,2), to: uci.slice(2,4), promotion: uci[4]}`. -/
def uciInput (uci : String) : MoveInput :=
  { fromSq := sliceStr uci 0 2, toSq := sliceStr uci 2 4, promotion := charAt uci 4 }

/-- `uciToSan` from engineHelpers.ts: try to construct the position and apply
the move; on any failure return the UCI token unchanged, else `move.san`. -/
def uciToSan {σ : Type} (api : ChessApi σ) (fen uci : String) : String :=
  match api.parse fen with
  | none => uci
  | some chess =>
    match api.move chess (uciInput uci) with
    | none => uci
    | some (m, _) => m.san

/-! ## chessHelpers.ts -/

/-- The `{san, uci, from, to}` record stored in `playedMove` / `nextMove`. -/
structure MoveData where
  san : String
  uci : String
  fromSq : String
  toSq : String
  deriving DecidableEq

/-- `{san: r.san, uci: r.from + r.to + (r.promotion ?? ''), from: r.from, to: r.to}` -/
def mkMoveData (r : MoveRes) : MoveData :=
  { san := r.san, uci := r.fromSq ++ r.toSq ++ r.promotion.getD (""),
    fromSq := r.fromSq, toSq := r.toSq }

/-- The `AnalysisEntry` type of chessHelpers.ts. -/
structure AnalysisEntry where
  fen : String
  moveIndex : Nat
  playedMove : Option MoveData
  nextMove : Option MoveData
  turn : Char
  deriving DecidableEq

/-- `entries[entries.length - 1] = f(entries[entries.length - 1])`:
apply `f` to the last element of a list. -/
def modifyLast {α : Type} (f : α → α) : List α → List α
  | [] => []
  | [a] => [f a]
  | a :: b :: rest => a :: modifyLast f (b :: rest)

/-- The `verboseMoves.forEach` loop body of `buildAnalysisEntriesFromVerbose`:
apply the move (skipping it if the collaborator rejects, as the source's early
`return` does), link the previous entry's `nextMove`, push the new entry. -/
def buildGo {σ : Type} (api : ChessApi σ) :
    σ → Nat → List AnalysisEntry → List MoveInput → List AnalysisEntry
  | _, _, entries, [] => entries
  | g, idx, entries, mv :: rest =>
    match api.move g mv with
    | none => buildGo api g (idx + 1) entries rest
    | some (res, g') =>
      let md := mkMoveData res
      buildGo api g' (idx + 1)
        (modifyLast (fun e => { e with nextMove := some md }) entries ++
          [{ fen := api.fen g', moveIndex := idx + 1, playedMove := some md,
             nextMove := none, turn := api.turn g' }])
        rest

/-- `buildAnalysisEntriesFromVerbose` from chessHelpers.ts: push the initial
entry, then replay the verbose history linking each entry to its successor. -/
def buildAnalysisEntriesFromVerbose {σ : Type} (api : ChessApi σ)
    (verboseMoves : List MoveInput) : List AnalysisEntry :=
  buildGo api api.initial 0
    [{ fen := api.fen api.initial, moveIndex := 0, playedMove := none,
       nextMove := none, turn := api.turn api.initial }]
    verboseMoves

/-- Every move of the list replays legally from `g`. -/
def allLegalB {σ : Type} (api : ChessApi σ) : σ → List MoveInput → Bool
  | _, [] => true
  | g, mv :: rest =>
    match api.move g mv with
    | none => false
    | some (_, g') => allLegalB api g' rest

/-- The state reached by replaying the list from `g` (stopping at a rejected
move). -/
def replayEnd {σ : Type} (api : ChessApi σ) : σ → List MoveInput → σ
  | g, [] => g
  | g, mv :: rest =>
    match api.move g mv with
    | none => g
    | some (_, g') => replayEnd api g' rest

/-- The loop of `sanitizeVerboseHistory`: apply each move to the replay board,
pushing the applied move; on a null return or a thrown exception, `break`. -/
def sanGo {σ : Type} (api : ChessApi σ) : σ → List MoveRes → List MoveInput → List MoveRes × σ
  | g, acc, [] => (acc, g)
  | g, acc, mv :: rest =>
    match api.move g mv with
    | none => (acc, g)
    | some (r, g') => sanGo api g' (acc ++ [r]) rest

/-- `sanitizeVerboseHistory` from chessHelpers.ts: re-validate an externally
supplied move list against a fresh replay board, truncating at the first move
the collaborator rejects.  Returns `{sanitized, replay}`. -/
def sanitizeVerboseHistory {σ : Type} (api : ChessApi σ) (verboseMoves : List MoveInput) :
    List MoveRes × σ :=
  sanGo api api.initial [] verboseMoves

/-- Modelled from the spec: the sanitized replay "re-validates an externally
supplied move list move-by-move against the rules collaborator and truncates at
the first illegal move rather than failing the whole timeline" — i.e. it is the
sequence of applied moves of the longest legal initial segment of the list. -/
def truncatedReplay {σ : Type} (api : ChessApi σ) : σ → List MoveInput → List MoveRes
  | _, [] => []
  | g, mv :: rest =>
    match api.move g mv with
    | none => []
    | some (r, g') => r :: truncatedReplay api g' rest

/-! ## App.tsx: suggestions and the blunder policy -/

/-- The `Suggestion` type of App.tsx. -/
structure Sugg where
  uci : String
  fromSq : String
  toSq : String
  score : Int
  san : String
  deriving DecidableEq

def dummySugg : Sugg := { uci := "", fromSq := "", toSq := "", score := 0, san := "" }

def dummyMoveRes : MoveRes := { san := "", fromSq := "", toSq := "", promotion := none }

/-- `m.from + m.to + (m.promotion ?? '')`. -/
def uciOfMoveRes (m : MoveRes) : String :=
  m.fromSq ++ m.toSq ++ m.promotion.getD ("")

/-- `pickMoveWithBlunder(fen, options, blunderProb)` from App.tsx.  The two
`Math.random()` draws are explicit inputs: `rand` is the branch draw, `rand2`
the draw used for the uniformly random legal move
(`legalMoves[Math.floor(Math.random() * legalMoves.length)]`).  The legal-move
list comes from `new Chess(fen).moves({verbose: true})`; an unparseable FEN
(where the source would throw) is modelled as an empty legal-move list, and an
out-of-range random index (impossible for draws in `[0,1)`) falls back to a
dummy move. -/
def pickMoveWithBlunder {σ : Type} (api : ChessApi σ) (fen : String)
    (options : List Sugg) (blunderProb rand rand2 : ℚ) : Option String :=
  if options.length = 0 then none
  else
    let legalMoves : List MoveRes :=
      match api.parse fen with
      | some chess => api.moves chess
      | none => []
    if rand < blunderProb * 0.4 ∧ legalMoves.length ≠ 0 then
      some (uciOfMoveRes (legalMoves.getD (Int.toNat ⌊rand2 * legalMoves.length⌋) dummyMoveRes))
    else if rand < blunderProb ∧ 2 ≤ options.length then
      if rand < blunderProb * 0.7 ∧ 3 ≤ options.length then
        some (options.getD (options.length - 1) dummySugg).uci
      else
        some (options.getD 1 dummySugg).uci
    else
      some (options.getD 0 dummySugg).uci

/-! ## The ranked-line regex of requestMultiSuggestions

The info handler matches
`/multipv\s+(\d+).*score\s+(cp|mate)\s+(-?\d+).*pv\s+([a-h][1-8][a-h][1-8][qrbn]?)/`
against every incoming `info` line.  The pattern is embedded as a small regex
AST with a backtracking matcher whose preference order is exactly JS's:
leftmost start position, left alternative first, greedy repetition. -/

inductive RE : Type
  | eps : RE
  | chr : (Char → Bool) → RE
  | cat : RE → RE → RE
  | alt : RE → RE → RE
  | star : RE → RE
  | group : Nat → RE → RE

/-- Captures: group index paired with the consumed characters (latest first). -/
abbrev Caps := List (Nat × List Char)

/-- Backtracking matcher in continuation-passing style.  `fuel` only bounds the
recursion depth; it is sized generously by the callers. -/
def matchRE : Nat → RE → List Char → Caps → (List Char → Caps → Option Caps) → Option Caps
  | 0, _, _, _, _ => none
  | _ + 1, RE.eps, s, caps, k => k s caps
  | _ + 1, RE.chr p, s, caps, k =>
    match s with
    | [] => none
    | c :: s' => if p c then k s' caps else none
  | fuel + 1, RE.cat a b, s, caps, k =>
    matchRE fuel a s caps (fun s' caps' => matchRE fuel b s' caps' k)
  | fuel + 1, RE.alt a b, s, caps, k =>
    match matchRE fuel a s caps k with
    | some r => some r
    | none => matchRE fuel b s caps k
  | fuel + 1, RE.star a, s, caps, k =>
    match matchRE fuel a s caps
        (fun s' caps' =>
          if s'.length < s.length then matchRE fuel (RE.star a) s' caps' k else none) with
    | some r => some r
    | none => k s caps
  | fuel + 1, RE.group n a, s, caps, k =>
    matchRE fuel a s caps
      (fun s' caps' => k s' ((n, s.take (s.length - s'.length)) :: caps'))

/-- Try the pattern at each start position, left to right (JS `String.match`
without an anchor). -/
def reSearch (fuel : Nat) (re : RE) : List Char → Option Caps
  | [] => matchRE fuel re [] [] (fun _ caps => some caps)
  | c :: rest =>
    match matchRE fuel re (c :: rest) [] (fun _ caps => some caps) with
    | some caps => some caps
    | none => reSearch fuel re rest

def capsGet : Caps → Nat → Option (List Char)
  | [], _ => none
  | (m, v) :: rest, n => if m = n then some v else capsGet rest n

/-- A literal string as a regex. -/
def reLit (s : String) : RE :=
  s.data.foldr (fun c acc => RE.cat (RE.chr (fun c' => c' = c)) acc) RE.eps

/-- `\s` -/
def reWs : RE := RE.chr (fun c => c.isWhitespace)

/-- `x+` (greedy). -/
def rePlus (a : RE) : RE := RE.cat a (RE.star a)

/-- `x?` (greedy). -/
def reOpt (a : RE) : RE := RE.alt a RE.eps

/-- `.` — any character except a line terminator. -/
def reDot : RE := RE.chr (fun c => ¬ (c = Char.ofNat 10 ∨ c = Char.ofNat 13))

/-- `[a-h][1-8][a-h][1-8][qrbn]?` -/
def reUciMove : RE :=
  RE.cat (RE.chr (fun c => 'a' ≤ c ∧ c ≤ 'h'))
    (RE.cat (RE.chr (fun c => '1' ≤ c ∧ c ≤ '8'))
      (RE.cat (RE.chr (fun c => 'a' ≤ c ∧ c ≤ 'h'))
        (RE.cat (RE.chr (fun c => '1' ≤ c ∧ c ≤ '8'))
          (reOpt (RE.chr (fun c => c = 'q' ∨ c = 'r' ∨ c = 'b' ∨ c = 'n'))))))

/-- `multipv\s+(\d+).*score\s+(cp|mate)\s+(-?\d+).*pv\s+([a-h][1-8][a-h][1-8][qrbn]?)` -/
def infoPattern : RE :=
  RE.cat (reLit ("multipv"))
    (RE.cat (rePlus reWs)
      (RE.cat (RE.group 1 (rePlus (RE.chr (fun c => c.isDigit))))
        (RE.cat (RE.star reDot)
          (RE.cat (reLit ("score"))
            (RE.cat (rePlus reWs)
              (RE.cat (RE.group 2 (RE.alt (reLit ("cp")) (reLit ("mate"))))
                (RE.cat (rePlus reWs)
                  (RE.cat (RE.group 3 (RE.cat (reOpt (RE.chr (fun c => c = '-')))
                      (rePlus (RE.chr (fun c => c.isDigit)))))
                    (RE.cat (RE.star reDot)
                      (RE.cat (reLit ("pv"))
                        (RE.cat (rePlus reWs)
                          (RE.group 4 reUciMove))))))))))))

/-- `line.match(/multipv.../)`: the four captured groups, or none. -/
def matchInfo (line : String) : Option (String × String × String × String) :=
  let s := line.data
  match reSearch ((s.length + 1) * 200) infoPattern s with
  | none => none
  | some caps =>
    match capsGet caps 1, capsGet caps 2, capsGet caps 3, capsGet caps 4 with
    | some a, some b, some c, some d =>
      some (String.mk a, String.mk b, String.mk c, String.mk d)
    | _, _, _, _ => none

/-- `Number` on a digit string. -/
def parseNatChars (l : List Char) : Nat :=
  l.foldl (fun n c => n * 10 + (c.toNat - 48)) 0

/-- `Number` on an optionally negated digit string. -/
def parseIntStr (s : String) : Int :=
  match s.data with
  | '-' :: rest => -(parseNatChars rest : Int)
  | l => (parseNatChars l : Int)

/-- The score normalization of the info handler:
`type === 'cp' ? Number(v) : Number(v) > 0 ? 100000 : -100000`. -/
def normalizeScore (ty : String) (v : Int) : Int :=
  if ty = "cp" then v else if 0 < v then 100000 else -100000

/-! ## The suggestion accumulator of requestMultiSuggestions -/

/-- `suggestions[idx] = v` on a JS array: set in place, or extend with holes. -/
def setSparse (l : List (Option Sugg)) (i : Nat) (v : Sugg) : List (Option Sugg) :=
  if i < l.length then l.set i (some v)
  else l ++ List.replicate (i - l.length) none ++ [some v]

/-- The comparator `(a, b) => b.score - a.score`: `a` may stay before `b`
exactly when `b.score ≤ a.score`. -/
def suggDescLe (a b : Sugg) : Bool := b.score ≤ a.score

/-- Insert into a descending-sorted list, before the first element it may
precede (so earlier elements win ties, as a stable sort demands). -/
def insertDesc (a : Sugg) : List Sugg → List Sugg
  | [] => [a]
  | b :: l => if suggDescLe a b then a :: b :: l else b :: insertDesc a l

/-- Stable sort by the comparator `(a, b) => b.score - a.score`.  ECMAScript
mandates `Array.sort` be stable, and a stable sort's output is determined
uniquely by the comparator, so this insertion sort computes exactly the JS
result. -/
def sortDesc : List Sugg → List Sugg
  | [] => []
  | a :: l => insertDesc a (sortDesc l)

/-- `suggestions.filter(Boolean).sort((a, b) => b.score - a.score)`: drop the
holes, then stable-sort descending by score. -/
def compactSort (acc : List (Option Sugg)) : List Sugg :=
  sortDesc (acc.filterMap id)

/-! ## The request coordinator as a labelled transition system

State of App.tsx relevant to analysis navigation.  `procs` holds one entry per
in-flight `loadAnalysisSuggestions` call, parked at one of the source's await
points:
  - `waitingIdle`: inside the `waitForEngineIdle()` poll loop;
  - `waitingReady1`: inside the first `waitForReady()` of
    `requestMultiSuggestions` (its resolver is in `readyQueue`);
  - `grinding`: `go movetime` issued, awaiting the `bestmove` reply, the
    installed info handler accumulating into `acc`;
  - `waitingReady2`: terminating reply received while still current, inside the
    second `waitForReady()`; on resumption it resets MultiPV and runs the
    commit block of `loadAnalysisSuggestions`.
The engine worker is always present (`workerRef.current` non-null): the claims
under verification all concern sessions with a live engine. -/

inductive Phase : Type
  | waitingIdle : Phase
  | waitingReady1 : Phase
  | grinding : Phase
  | waitingReady2 : Phase
  deriving DecidableEq

structure Proc where
  rid : Nat
  fen : String
  phase : Phase
  acc : List (Option Sugg)
  deriving DecidableEq

structure MState where
  engineReady : Bool
  counter : Nat
  lastFen : Option String
  engineBusy : Bool
  cache : List (String × List Sugg)
  output : List Sugg
  loading : Bool
  analysisError : Option String
  sent : List String
  readyQueue : List Nat
  bestProc : Option Nat
  infoProc : Option Nat
  procs : List Proc
  deriving DecidableEq

/-- `analysisCacheRef.current.get(fen)`. -/
def cacheGet : List (String × List Sugg) → String → Option (List Sugg)
  | [], _ => none
  | (k', v') :: rest, k => if k' = k then some v' else cacheGet rest k

/-- `analysisCacheRef.current.set(fen, suggestions)`. -/
def cacheSet : List (String × List Sugg) → String → List Sugg → List (String × List Sugg)
  | [], k, v => [(k, v)]
  | (k', v') :: rest, k, v =>
    if k' = k then (k, v) :: rest else (k', v') :: cacheSet rest k v

def findProc : List Proc → Nat → Option Proc
  | [], _ => none
  | p :: rest, rid => if p.rid = rid then some p else findProc rest rid

def removeProc : List Proc → Nat → List Proc
  | [], _ => []
  | p :: rest, rid => if p.rid = rid then rest else p :: removeProc rest rid

/-- Update the process with the given id in place. -/
def mapProc (f : Proc → Proc) : List Proc → Nat → List Proc
  | [], _ => []
  | p :: rest, rid => if p.rid = rid then f p :: rest else p :: mapProc f rest rid

/-- The synchronous head of `loadAnalysisSuggestions(fen)`: bail out when the
engine is not ready, serve from the cache when possible, else allocate a fresh
generation id, reset the visible state, remember the requested position, nudge
a busy engine with `stop`, and park at the `waitForEngineIdle()` await. -/
def doLoad (s : MState) (fen : String) : MState :=
  if s.engineReady = false then { s with loading := false }
  else
    match cacheGet s.cache fen with
    | some l => { s with output := l, loading := false }
    | none =>
      let rid := s.counter + 1
      { s with
        counter := rid
        loading := true
        analysisError := none
        output := []
        lastFen := some fen
        sent := s.sent ++ (if s.engineBusy then ["stop"] else [])
        procs := s.procs ++ [{ rid := rid, fen := fen, phase := Phase.waitingIdle, acc := [] }] }

/-- One successful exit of the `waitForEngineIdle()` poll loop for process
`rid`, running the continuation up to the next await: the post-wait generation
re-check of `loadAnalysisSuggestions`, then the head of
`requestMultiSuggestions` (whose early generation re-check repeats the same
comparison) up to its first `waitForReady()`.  A no-op while the engine is
busy. -/
def doPollIdle (s : MState) (rid : Nat) : MState :=
  match findProc s.procs rid with
  | none => s
  | some p =>
    if p.phase = Phase.waitingIdle ∧ s.engineBusy = false then
      if s.counter ≠ rid then { s with procs := removeProc s.procs rid }
      else
        { s with
          procs := mapProc (fun q => { q with phase := Phase.waitingReady1 }) s.procs rid
          readyQueue := s.readyQueue ++ [rid]
          sent := s.sent ++ ["isready"] }
    else s

/-- Resume one drained readiness resolver.  For a process at the first
`waitForReady()` of `requestMultiSuggestions`: re-check the generation (a stale
request returns `[]`, and the commit block of its `loadAnalysisSuggestions`
then fails the same comparison, so it dies without side effects); a current one
configures MultiPV, sends the position, installs the info handler and the
bestmove resolver, flags the engine busy and issues `go`.  For a process at the
second `waitForReady()`: reset MultiPV, then run the commit block of
`loadAnalysisSuggestions` — cache write and visible-output write both guarded
by the generation re-check, the output write additionally by the
last-requested-position check. -/
def resumeReady (s : MState) (rid : Nat) : MState :=
  match findProc s.procs rid with
  | none => s
  | some p =>
    match p.phase with
    | Phase.waitingIdle => s
    | Phase.grinding => s
    | Phase.waitingReady1 =>
      if s.counter ≠ rid then { s with procs := removeProc s.procs rid }
      else
        { s with
          sent := s.sent ++ ["setoption name MultiPV value 3", "position fen " ++ p.fen,
            "go movetime 1200"]
          infoProc := some rid
          bestProc := some rid
          engineBusy := true
          procs := mapProc (fun q => { q with phase := Phase.grinding }) s.procs rid }
    | Phase.waitingReady2 =>
      let res := compactSort p.acc
      let s1 := { s with
        sent := s.sent ++ ["setoption name MultiPV value 1"]
        procs := removeProc s.procs rid }
      if s.counter = rid then
        let s2 := { s1 with cache := cacheSet s1.cache p.fen res }
        if s.lastFen = some p.fen then { s2 with output := res, loading := false } else s2
      else s1

/-- The info handler installed by `requestMultiSuggestions`: match the ranked
line pattern, normalize the score, convert the move to SAN against the
requested position, and store the suggestion at index `multipv - 1` of the
sparse accumulator (a rank of 0 would land at JS index `-1`, a plain property
invisible to `filter`, so it is dropped). -/
def applyInfo {σ : Type} (api : ChessApi σ) (s : MState) (line : String) : MState :=
  match s.infoProc with
  | none => s
  | some rid =>
    match findProc s.procs rid with
    | none => s
    | some p =>
      match matchInfo line with
      | none => s
      | some (idxStr, ty, valStr, moveUci) =>
        let score := normalizeScore ty (parseIntStr valStr)
        let san := uciToSan api p.fen moveUci
        let sugg : Sugg :=
          { uci := moveUci
            fromSq := sliceStr moveUci 0 2
            toSq := sliceStr moveUci 2 4
            score := score
            san := san }
        let idx : Int := (parseNatChars idxStr.data : Int) - 1
        if idx < 0 then s
        else
          { s with
            procs := mapProc (fun q => { q with acc := setSparse q.acc idx.toNat sugg }) s.procs rid }

/-- A `bestmove` line: the dispatcher fires and clears the bestmove resolver
and clears the info handler; the awaiting `requestMultiSuggestions` then clears
the busy flag and re-checks the generation — a superseded request returns its
best-effort result (which the stale commit block of `loadAnalysisSuggestions`
then discards), a current one parks at the second `waitForReady()`. -/
def applyBest (s : MState) : MState :=
  match s.bestProc with
  | none => { s with infoProc := none }
  | some rid =>
    let s1 := { s with bestProc := none, infoProc := none }
    match findProc s1.procs rid with
    | none => s1
    | some p =>
      if p.phase = Phase.grinding then
        if s1.counter ≠ rid then
          { s1 with engineBusy := false, procs := removeProc s1.procs rid }
        else
          { s1 with
            engineBusy := false
            procs := mapProc (fun q => { q with phase := Phase.waitingReady2 }) s1.procs rid
            readyQueue := s1.readyQueue ++ [rid]
            sent := s1.sent ++ ["isready"] }
      else s1

/-- `line.startsWith(p)`, on the character lists. -/
def strStarts (s p : String) : Bool := s.data.take p.data.length = p.data

/-- The worker `onmessage` dispatcher of App.tsx: `uciok` only updates the
status label; `readyok` drains and resumes the whole resolver list in order and
marks the engine ready; a line starting with `info` feeds the installed info
handler; a line starting with `bestmove` fires the bestmove resolver. -/
def engineLine {σ : Type} (api : ChessApi σ) (s : MState) (line : String) : MState :=
  if line = "uciok" then s
  else if line = "readyok" then
    let q := s.readyQueue
    q.foldl resumeReady { s with readyQueue := [], engineReady := true }
  else
    let s1 := if strStarts line ("info") then applyInfo api s line else s
    if strStarts line ("bestmove") then applyBest s1 else s1

inductive Act : Type
  | load : String → Act
  | pollIdle : Nat → Act
  | engineLine : String → Act
  deriving DecidableEq

def isLoad : Act → Bool
  | Act.load _ => true
  | _ => false

def step {σ : Type} (api : ChessApi σ) (s : MState) : Act → MState
  | Act.load fen => doLoad s fen
  | Act.pollIdle rid => doPollIdle s rid
  | Act.engineLine line => engineLine api s line

def run {σ : Type} (api : ChessApi σ) (s : MState) : List Act → MState
  | [] => s
  | a :: rest => run api (step api s a) rest

/-- The component state at mount: no generation allocated, nothing cached,
engine not yet ready, nothing in flight. -/
def initState : MState :=
  { engineReady := false, counter := 0, lastFen := none, engineBusy := false,
    cache := [], output := [], loading := false, analysisError := none,
    sent := [], readyQueue := [], bestProc := none, infoProc := none, procs := [] }

/-- How many `go` commands were issued to the engine. -/
def countGo (l : List String) : Nat :=
  (l.filter (fun c => c = "go movetime 1200")).length

/-! ## Concrete collaborators and traces used by witnesses and scenarios -/

/-- A rules collaborator for whom nothing parses: every `uciToSan` falls back
to the raw UCI token (the engine-protocol claims do not depend on SAN). -/
def nullApi : ChessApi Unit :=
  { initial := (), parse := fun _ => none, move := fun _ _ => none,
    fen := fun _ => "", turn := fun _ => 'w', moves := fun _ => [] }

/-- A small executable rules collaborator: state is a move counter, the FEN
"bad" fails to parse, the position "empty" has no legal moves, and a move from
square "xx" is rejected. -/
def toyApi : ChessApi Nat :=
  { initial := 0
    parse := fun f => if f = "bad" then none else if f = "empty" then some 100 else some 0
    move := fun g m =>
      if m.fromSq = "xx" then none
      else some ({ san := "S" ++ m.fromSq, fromSq := m.fromSq, toSq := m.toSq,
                   promotion := m.promotion }, g + 1)
    fen := fun g => "fen" ++ String.mk (List.replicate g 'i')
    turn := fun g => if g % 2 = 0 then 'w' else 'b'
    moves := fun g =>
      if g = 100 then []
      else [{ san := "a3", fromSq := "a2", toSq := "a3", promotion := none },
            { san := "b3", fromSq := "b2", toSq := "b3", promotion := none },
            { san := "c3", fromSq := "c2", toSq := "c3", promotion := none }] }

def sugg50 : Sugg :=
  { uci := "e2e4", fromSq := "e2", toSq := "e4", score := 50, san := "e2e4" }

def sugg30 : Sugg :=
  { uci := "d2d4", fromSq := "d2", toSq := "d4", score := 30, san := "d2d4" }

def fenA : String := "rnbqkbnr/pppppppp/8/8/8/8/PPPPPPPP/RNBQKBNR w KQkq - 0 1"

def fenB : String := "rnbqkbnr/pppppppp/8/8/4P3/8/PPPP1PPP/RNBQKBNR b KQkq - 0 1"

/-- Scenario trace for the ranked-suggestions request: one navigation to the
initial position, engine replies `info ... multipv 1 ... cp 50 ... pv e2e4`,
`info ... multipv 2 ... cp 30 ... pv d2d4`, then `bestmove`. -/
def actsScenario : List Act :=
  [Act.engineLine ("readyok"),
   Act.load fenA,
   Act.pollIdle 1,
   Act.engineLine ("readyok"),
   Act.engineLine ("info multipv 1 score cp 50 pv e2e4"),
   Act.engineLine ("info multipv 2 score cp 30 pv d2d4"),
   Act.engineLine ("bestmove e2e4"),
   Act.engineLine ("readyok")]

/-- Cache-idempotence trace: one full `loadSuggestions(fenA)` round trip
followed by a second `loadSuggestions(fenA)`. -/
def actsTwice : List Act :=
  [Act.engineLine ("readyok"),
   Act.load fenA,
   Act.pollIdle 1,
   Act.engineLine ("readyok"),
   Act.engineLine ("info multipv 1 score cp 50 pv e2e4"),
   Act.engineLine ("info multipv 2 score cp 30 pv d2d4"),
   Act.engineLine ("bestmove e2e4"),
   Act.engineLine ("readyok"),
   Act.load fenA]

/-- Preemption trace, first part: navigate to B and let its request complete
(B is now cached and displayed); navigate to A (request in flight); navigate
back to B before A resolves — B is served from the cache, and neither the
generation counter nor the last-requested position moves. -/
def actsPreemptPre : List Act :=
  [Act.engineLine ("readyok"),
   Act.load fenB,
   Act.pollIdle 1,
   Act.engineLine ("readyok"),
   Act.engineLine ("info multipv 1 score cp 30 pv d2d4"),
   Act.engineLine ("bestmove d2d4"),
   Act.engineLine ("readyok"),
   Act.load fenA,
   Act.pollIdle 2,
   Act.engineLine ("readyok"),
   Act.engineLine ("info multipv 1 score cp 50 pv e2e4"),
   Act.load fenB]

/-- Preemption trace, completed: A's engine computation finishes only after
the navigation back to B, and its commit block still passes both the
generation re-check and the last-requested-position check. -/
def actsPreempt : List Act :=
  actsPreemptPre ++ [Act.engineLine ("bestmove e2e4"), Act.engineLine ("readyok")]

/-! ## Theorems -/

theorem clamp_le_clamp {mn mx x y : ℚ} (h : x ≤ y) : clamp x mn mx ≤ clamp y mn mx :=
  min_le_min le_rfl (max_le_max le_rfl h)

theorem clamp01_nonneg (x : ℚ) : 0 ≤ clamp x 0 1 :=
  le_min (by norm_num) (le_max_left 0 x)

theorem jsRound_le_jsRound {x y : ℚ} (h : x ≤ y) : jsRound x ≤ jsRound y :=
  Int.floor_le_floor (add_le_add_right h _)

theorem jsRound_eq_of_bounds {x : ℚ} {n : ℤ} (h1 : (n : ℚ) ≤ x + 1/2) (h2 : x + 1/2 < n + 1) :
    jsRound x = n :=
  Int.floor_eq_iff.mpr ⟨h1, h2⟩

/-- C7: blunderProbability is exactly 0.02 at or above the mid threshold 1600;
below it, it equals `0.05 + 0.75 * clamp((1600 - rating)/1000, 0, 1)`, giving
0.80 at the floor rating 600 and 0.425 at 1100; and it is monotonically
non-increasing in the rating. -/
theorem blunderProbability_spec :
    (∀ elo : ℚ, 1600 ≤ elo → computeBlunderProbability elo = 0.02)
    ∧ (∀ elo : ℚ, elo < 1600 →
        computeBlunderProbability elo = 0.05 + 0.75 * clamp ((1600 - elo) / 1000) 0 1)
    ∧ computeBlunderProbability 600 = 0.8
    ∧ computeBlunderProbability 1100 = 0.425
    ∧ (∀ a b : ℚ, a ≤ b → computeBlunderProbability b ≤ computeBlunderProbability a) := by
  have hlow : ∀ elo : ℚ, elo < 1600 →
      computeBlunderProbability elo = 0.05 + clamp ((1600 - elo) / 1000) 0 1 * 0.75 := by
    intro elo h
    simp only [computeBlunderProbability, if_neg (not_le.mpr h)]
  refine ⟨?_, ?_, ?_, ?_, ?_⟩
  · intro elo h
    simp only [computeBlunderProbability, if_pos h]
  · intro elo h
    rw [hlow elo h]; ring
  · rw [hlow 600 (by norm_num)]
    have : clamp ((1600 - 600 : ℚ) / 1000) 0 1 = 1 := by
      norm_num [clamp]
    rw [this]; norm_num
  · rw [hlow 1100 (by norm_num)]
    have : clamp ((1600 - 1100 : ℚ) / 1000) 0 1 = 1/2 := by
      norm_num [clamp]
    rw [this]; norm_num
  · intro a b hab
    by_cases ha : 1600 ≤ a
    · have h1 : computeBlunderProbability a = 0.02 := by
        simp only [computeBlunderProbability, if_pos ha]
      have h2 : computeBlunderProbability b = 0.02 := by
        simp only [computeBlunderProbability, if_pos (le_trans ha hab)]
      rw [h1, h2]
    · by_cases hb : 1600 ≤ b
      · have h2 : computeBlunderProbability b = 0.02 := by
          simp only [computeBlunderProbability, if_pos hb]
        rw [h2, hlow a (not_le.mp ha)]
        have := clamp01_nonneg ((1600 - a) / 1000)
        nlinarith
      · rw [hlow a (not_le.mp ha), hlow b (not_le.mp hb)]
        have hc : clamp ((1600 - b) / 1000) 0 1 ≤ clamp ((1600 - a) / 1000) 0 1 :=
          clamp_le_clamp (by linarith)
        nlinarith

theorem blunderProbability_spec_witness :
    computeBlunderProbability 2000 = 0.02
    ∧ computeBlunderProbability 1599 = 0.05 + 0.75 * clamp ((1600 - 1599) / 1000) 0 1
    ∧ computeBlunderProbability 1100 ≤ computeBlunderProbability 700 :=
  ⟨blunderProbability_spec.1 2000 (by norm_num),
   blunderProbability_spec.2.1 1599 (by norm_num),
   blunderProbability_spec.2.2.2.2 700 1100 (by norm_num)⟩

/-- C8: skillLevel is the linear rescale of the rating from floor 600 to
ceiling 2800 onto the integer range [0, 20], clamped at both ends: 0 at 600,
20 at 2800, clamped to the endpoints outside [600, 2800], always an integer in
[0, 20], and monotonically non-decreasing in the rating. -/
theorem skillLevel_spec :
    computeSkillLevel 600 = 0
    ∧ computeSkillLevel 2800 = 20
    ∧ (∀ elo : ℚ, elo ≤ 600 → computeSkillLevel elo = 0)
    ∧ (∀ elo : ℚ, 2800 ≤ elo → computeSkillLevel elo = 20)
    ∧ (∀ elo : ℚ, ∃ n : ℤ, computeSkillLevel elo = (n : ℚ) ∧ 0 ≤ n ∧ n ≤ 20)
    ∧ (∀ a b : ℚ, a ≤ b → computeSkillLevel a ≤ computeSkillLevel b) := by
  have hlin : ∀ x : ℚ, (x - 600) / (2800 - 600) * 20 = (x - 600) * (1 / 110) := by
    intro x; ring
  have hlo : ∀ elo : ℚ, elo ≤ 600 → computeSkillLevel elo = 0 := by
    intro elo h
    have hs : (elo - 600) / (2800 - 600) * 20 ≤ 0 := by
      rw [hlin]; linarith
    have hr : jsRound ((elo - 600) / (2800 - 600) * 20) ≤ 0 := by
      calc jsRound ((elo - 600) / (2800 - 600) * 20) ≤ jsRound 0 := jsRound_le_jsRound hs
        _ = 0 := jsRound_eq_of_bounds (by norm_num) (by norm_num)
    have hc : ((jsRound ((elo - 600) / (2800 - 600) * 20) : ℤ) : ℚ) ≤ 0 := by
      exact_mod_cast hr
    unfold computeSkillLevel clamp
    rw [max_eq_left hc, min_eq_right (by norm_num)]
  have hhi : ∀ elo : ℚ, 2800 ≤ elo → computeSkillLevel elo = 20 := by
    intro elo h
    have hs : (20 : ℚ) ≤ (elo - 600) / (2800 - 600) * 20 := by
      rw [hlin]; linarith
    have hr : (20 : ℤ) ≤ jsRound ((elo - 600) / (2800 - 600) * 20) := by
      calc (20 : ℤ) = jsRound 20 := (jsRound_eq_of_bounds (by norm_num) (by norm_num)).symm
        _ ≤ jsRound ((elo - 600) / (2800 - 600) * 20) := jsRound_le_jsRound hs
    have hc : (20 : ℚ) ≤ ((jsRound ((elo - 600) / (2800 - 600) * 20) : ℤ) : ℚ) := by
      exact_mod_cast hr
    unfold computeSkillLevel clamp
    rw [max_eq_right (le_trans (by norm_num) hc), min_eq_left hc]
  refine ⟨hlo 600 le_rfl, hhi 2800 le_rfl, hlo, hhi, ?_, ?_⟩
  · intro elo
    refine ⟨min 20 (max 0 (jsRound ((elo - 600) / (2800 - 600) * 20))), ?_, ?_, ?_⟩
    · unfold computeSkillLevel clamp
      push_cast
      rfl
    · exact le_min (by norm_num) (le_max_left 0 _)
    · exact min_le_left 20 _
  · intro a b hab
    unfold computeSkillLevel
    apply clamp_le_clamp
    have : (a - 600) / (2800 - 600) * 20 ≤ (b - 600) / (2800 - 600) * 20 := by
      rw [hlin, hlin]; linarith
    exact_mod_cast jsRound_le_jsRound this

theorem skillLevel_spec_witness :
    computeSkillLevel 100 = 0
    ∧ computeSkillLevel 3000 = 20
    ∧ computeSkillLevel 1100 ≤ computeSkillLevel 1700 :=
  ⟨skillLevel_spec.2.2.1 100 (by norm_num),
   skillLevel_spec.2.2.2.1 3000 (by norm_num),
   skillLevel_spec.2.2.2.2.2 1100 1700 (by norm_num)⟩

/-- C10: `uciToSan` is total (a plain function to `String`, raising nothing):
if the FEN fails to parse or the move is rejected, it returns the UCI token
unchanged; otherwise it returns the standard-algebraic notation of the applied
move. -/
theorem uciToSan_total_fallback {σ : Type} (api : ChessApi σ) (fen uci : String) :
    (api.parse fen = none → uciToSan api fen uci = uci)
    ∧ (∀ g, api.parse fen = some g → api.move g (uciInput uci) = none →
        uciToSan api fen uci = uci)
    ∧ (∀ g m g', api.parse fen = some g → api.move g (uciInput uci) = some (m, g') →
        uciToSan api fen uci = m.san) := by
  refine ⟨?_, ?_, ?_⟩
  · intro h
    simp [uciToSan, h]
  · intro g h1 h2
    simp [uciToSan, h1, h2]
  · intro g m g' h1 h2
    simp [uciToSan, h1, h2]

theorem uciToSan_total_fallback_witness :
    uciToSan toyApi ("bad") ("e2e4") = "e2e4"
    ∧ uciToSan toyApi ("ok") ("xx44") = "xx44"
    ∧ uciToSan toyApi ("ok") ("e2e4") = "Se2" :=
  ⟨(uciToSan_total_fallback toyApi ("bad") ("e2e4")).1 (by decide),
   (uciToSan_total_fallback toyApi ("ok") ("xx44")).2.1 0 (by decide) (by decide),
   (uciToSan_total_fallback toyApi ("ok") ("e2e4")).2.2 0
     { san := "Se2", fromSq := "e2", toSq := "e4", promotion := none } 1
     (by decide) (by decide)⟩

theorem sanGo_eq_append {σ : Type} (api : ChessApi σ) :
    ∀ (moves : List MoveInput) (g : σ) (acc : List MoveRes),
      (sanGo api g acc moves).1 = acc ++ truncatedReplay api g moves := by
  intro moves
  induction moves with
  | nil => intro g acc; simp [sanGo, truncatedReplay]
  | cons mv rest ih =>
    intro g acc
    simp only [sanGo, truncatedReplay]
    cases h : api.move g mv with
    | none => simp
    | some rg' =>
      obtain ⟨r, g'⟩ := rg'
      simp only []
      rw [ih g' (acc ++ [r])]
      simp

theorem truncatedReplay_length_le {σ : Type} (api : ChessApi σ) :
    ∀ (moves : List MoveInput) (g : σ),
      (truncatedReplay api g moves).length ≤ moves.length := by
  intro moves
  induction moves with
  | nil => intro g; simp [truncatedReplay]
  | cons mv rest ih =>
    intro g
    simp only [truncatedReplay]
    cases h : api.move g mv with
    | none => simp
    | some rg' =>
      obtain ⟨r, g'⟩ := rg'
      simpa using Nat.succ_le_succ (ih g')

theorem truncatedReplay_length_of_legal {σ : Type} (api : ChessApi σ) :
    ∀ (moves : List MoveInput) (g : σ), allLegalB api g moves = true →
      (truncatedReplay api g moves).length = moves.length := by
  intro moves
  induction moves with
  | nil => intro g _; simp [truncatedReplay]
  | cons mv rest ih =>
    intro g hl
    simp only [truncatedReplay]
    cases h : api.move g mv with
    | none =>
      rw [allLegalB, h] at hl
      exact absurd hl (by simp)
    | some rg' =>
      obtain ⟨r, g'⟩ := rg'
      rw [allLegalB, h] at hl
      simpa using ih g' hl

/-- C3: the sanitized replay validates the externally supplied move list one
move at a time against the rules collaborator and, at the first rejected move,
truncates: the `sanitized` list it returns is exactly the replay of the longest
legal initial segment (`truncatedReplay`, written from the spec's words), never
longer than the input, and all of the input when every move is legal.  The
function's codomain is a plain pair — rejection `break`s the loop (both a null
return and a thrown chess.js exception take that branch), so no error escapes
mid-list. -/
theorem sanitize_truncates {σ : Type} (api : ChessApi σ) (moves : List MoveInput) :
    (sanitizeVerboseHistory api moves).1 = truncatedReplay api api.initial moves
    ∧ (sanitizeVerboseHistory api moves).1.length ≤ moves.length
    ∧ (allLegalB api api.initial moves = true →
        (sanitizeVerboseHistory api moves).1.length = moves.length) := by
  have he : (sanitizeVerboseHistory api moves).1 = truncatedReplay api api.initial moves := by
    rw [sanitizeVerboseHistory, sanGo_eq_append]
    simp
  refine ⟨he, ?_, ?_⟩
  · rw [he]
    exact truncatedReplay_length_le api moves api.initial
  · intro hl
    rw [he]
    exact truncatedReplay_length_of_legal api moves api.initial hl

theorem sanitize_truncates_witness :
    (sanitizeVerboseHistory toyApi
      [{ fromSq := "a2", toSq := "a3", promotion := none },
       { fromSq := "xx", toSq := "d4", promotion := none },
       { fromSq := "e2", toSq := "e4", promotion := none }]).1
      = truncatedReplay toyApi toyApi.initial
        [{ fromSq := "a2", toSq := "a3", promotion := none },
         { fromSq := "xx", toSq := "d4", promotion := none },
         { fromSq := "e2", toSq := "e4", promotion := none }]
    ∧ (sanitizeVerboseHistory toyApi
        [{ fromSq := "a2", toSq := "a3", promotion := none },
         { fromSq := "b2", toSq := "b3", promotion := none }]).1.length = 2 :=
  ⟨(sanitize_truncates toyApi _).1,
   (sanitize_truncates toyApi
      [{ fromSq := "a2", toSq := "a3", promotion := none },
       { fromSq := "b2", toSq := "b3", promotion := none }]).2.2 (by decide)⟩

theorem modifyLast_length {α : Type} (f : α → α) :
    ∀ l : List α, (modifyLast f l).length = l.length := by
  intro l
  induction l with
  | nil => rfl
  | cons a t ih =>
    cases t with
    | nil => rfl
    | cons b r =>
      simp only [modifyLast, List.length_cons]
      simp only [modifyLast, List.length_cons] at ih
      omega

theorem head?_modifyLast_map {α γ : Type} (f : α → α) (proj : α → γ)
    (hf : ∀ e, proj (f e) = proj e) :
    ∀ l : List α, ((modifyLast f l).head?).map proj = (l.head?).map proj := by
  intro l
  cases l with
  | nil => rfl
  | cons a t =>
    cases t with
    | nil => simp [modifyLast, hf]
    | cons b r => simp [modifyLast]

theorem getLast?_cons_of_ne_nil {α : Type} (a : α) {l : List α} (h : l ≠ []) :
    (a :: l).getLast? = l.getLast? := by
  cases l with
  | nil => exact absurd rfl h
  | cons b t => exact List.getLast?_cons_cons

theorem modifyLast_ne_nil {α : Type} (f : α → α) {l : List α} (h : l ≠ []) :
    modifyLast f l ≠ [] := by
  intro hcon
  have := modifyLast_length f l
  rw [hcon] at this
  exact h (List.length_eq_zero.mp this.symm)

theorem getLast?_modifyLast {α : Type} (f : α → α) :
    ∀ l : List α, (modifyLast f l).getLast? = (l.getLast?).map f := by
  intro l
  induction l with
  | nil => rfl
  | cons a t ih =>
    cases t with
    | nil => simp [modifyLast]
    | cons b r =>
      have hne : modifyLast f (b :: r) ≠ [] := modifyLast_ne_nil f (by simp)
      show (a :: modifyLast f (b :: r)).getLast? = ((a :: b :: r).getLast?).map f
      rw [getLast?_cons_of_ne_nil a hne, List.getLast?_cons_cons, ih]

theorem head?_append_left {α : Type} (l l' : List α) (h : l ≠ []) :
    (l ++ l').head? = l.head? := by
  cases l with
  | nil => exact absurd rfl h
  | cons a t => simp

theorem chain'_modifyLast (f : AnalysisEntry → AnalysisEntry)
    (hf : ∀ e, (f e).playedMove = e.playedMove) :
    ∀ l : List AnalysisEntry,
      List.Chain' (fun a b => a.nextMove = b.playedMove) l →
      List.Chain' (fun a b => a.nextMove = b.playedMove) (modifyLast f l) := by
  intro l
  induction l with
  | nil => intro _; exact List.chain'_nil
  | cons a t ih =>
    cases t with
    | nil => intro _; simp [modifyLast]
    | cons b r =>
      intro hc
      rw [List.chain'_cons'] at hc
      simp only [modifyLast]
      rw [List.chain'_cons']
      refine ⟨?_, ih hc.2⟩
      intro y hy
      have hhead := head?_modifyLast_map f AnalysisEntry.playedMove hf (b :: r)
      have hab : a.nextMove = b.playedMove := hc.1 b (by simp)
      rw [Option.mem_def] at hy
      rw [hy] at hhead
      simp only [List.head?_cons, Option.map_some'] at hhead
      have hyb : y.playedMove = b.playedMove := Option.some_inj.mp hhead
      rw [hab, ← hyb]

theorem buildGo_props {σ : Type} (api : ChessApi σ) :
    ∀ (moves : List MoveInput) (g : σ) (idx : Nat) (entries : List AnalysisEntry),
      allLegalB api g moves = true → entries ≠ [] →
      (∀ e ∈ entries.getLast?, e.nextMove = none ∧ e.fen = api.fen g) →
      List.Chain' (fun a b => a.nextMove = b.playedMove) entries →
      (buildGo api g idx entries moves).length = entries.length + moves.length
      ∧ ((buildGo api g idx entries moves).head?).map AnalysisEntry.playedMove
          = (entries.head?).map AnalysisEntry.playedMove
      ∧ ((buildGo api g idx entries moves).head?).map AnalysisEntry.fen
          = (entries.head?).map AnalysisEntry.fen
      ∧ (∀ e ∈ (buildGo api g idx entries moves).getLast?,
          e.nextMove = none ∧ e.fen = api.fen (replayEnd api g moves))
      ∧ List.Chain' (fun a b => a.nextMove = b.playedMove) (buildGo api g idx entries moves) := by
  intro moves
  induction moves with
  | nil =>
    intro g idx entries _ _ hlast hchain
    refine ⟨by simp [buildGo], rfl, rfl, ?_, hchain⟩
    simpa [buildGo, replayEnd] using hlast
  | cons mv rest ih =>
    intro g idx entries hl hne hlast hchain
    cases hmv : api.move g mv with
    | none =>
      rw [allLegalB, hmv] at hl
      exact absurd hl (by simp)
    | some rg' =>
      obtain ⟨res, g'⟩ := rg'
      rw [allLegalB, hmv] at hl
      have hstep : buildGo api g idx entries (mv :: rest)
          = buildGo api g' (idx + 1)
              (modifyLast (fun e => { e with nextMove := some (mkMoveData res) }) entries ++
                [{ fen := api.fen g', moveIndex := idx + 1,
                   playedMove := some (mkMoveData res), nextMove := none,
                   turn := api.turn g' }]) rest := by
        rw [buildGo, hmv]
      have hrep : replayEnd api g (mv :: rest) = replayEnd api g' rest := by
        rw [replayEnd, hmv]
      set md := mkMoveData res with hmd
      set f : AnalysisEntry → AnalysisEntry := fun e => { e with nextMove := some md } with hfdef
      set newE : AnalysisEntry :=
        { fen := api.fen g', moveIndex := idx + 1, playedMove := some md,
          nextMove := none, turn := api.turn g' } with hnewE
      have hfplayed : ∀ e, (f e).playedMove = e.playedMove := by intro e; rfl
      have hffen : ∀ e, (f e).fen = e.fen := by intro e; rfl
      have hne' : modifyLast f entries ++ [newE] ≠ [] := by simp
      have hlast' : ∀ e ∈ (modifyLast f entries ++ [newE]).getLast?,
          e.nextMove = none ∧ e.fen = api.fen g' := by
        intro e he
        rw [List.getLast?_concat] at he
        cases he
        exact ⟨rfl, rfl⟩
      have hchain' : List.Chain' (fun a b => a.nextMove = b.playedMove)
          (modifyLast f entries ++ [newE]) := by
        rw [List.chain'_append]
        refine ⟨chain'_modifyLast f hfplayed entries hchain, List.chain'_singleton _, ?_⟩
        intro x hx y hy
        rw [getLast?_modifyLast] at hx
        simp only [List.head?_cons, Option.mem_def, Option.some_inj] at hy
        obtain ⟨x0, hx0, hfx0⟩ := Option.map_eq_some'.mp hx
        subst hfx0
        subst hy
        show (f x0).nextMove = newE.playedMove
        rfl
      obtain ⟨ihlen, ihhp, ihhf, ihlast, ihchain⟩ :=
        ih g' (idx + 1) (modifyLast f entries ++ [newE]) hl hne' hlast' hchain'
      rw [hstep, hrep]
      refine ⟨?_, ?_, ?_, ihlast, ihchain⟩
      · rw [ihlen]
        simp [modifyLast_length]
        omega
      · rw [ihhp, head?_append_left _ _ (by
          intro hcon
          exact hne (by
            have := modifyLast_length f entries
            rw [hcon] at this
            simpa using (List.length_eq_zero.mp this.symm))),
          head?_modifyLast_map f AnalysisEntry.playedMove hfplayed]
      · rw [ihhf, head?_append_left _ _ (by
          intro hcon
          exact hne (by
            have := modifyLast_length f entries
            rw [hcon] at this
            simpa using (List.length_eq_zero.mp this.symm))),
          head?_modifyLast_map f AnalysisEntry.fen hffen]

/-- C2: on a sequence of K legal moves, `buildAnalysisEntriesFromVerbose`
returns exactly K+1 entries; entry 0 is the initial position and carries no
`playedMove`; the last entry is the final position and carries no `nextMove`;
and each entry's `nextMove` equals the next entry's `playedMove`
(`List.Chain'`), so the two are in particular equal whenever both are
present. -/
theorem buildTimeline_shape {σ : Type} (api : ChessApi σ) (moves : List MoveInput)
    (h : allLegalB api api.initial moves = true) :
    (buildAnalysisEntriesFromVerbose api moves).length = moves.length + 1
    ∧ (∀ e ∈ (buildAnalysisEntriesFromVerbose api moves).head?,
        e.playedMove = none ∧ e.fen = api.fen api.initial)
    ∧ (∀ e ∈ (buildAnalysisEntriesFromVerbose api moves).getLast?,
        e.nextMove = none ∧ e.fen = api.fen (replayEnd api api.initial moves))
    ∧ List.Chain' (fun a b => a.nextMove = b.playedMove)
        (buildAnalysisEntriesFromVerbose api moves) := by
  obtain ⟨hlen, hhp, hhf, hlast, hchain⟩ :=
    buildGo_props api moves api.initial 0
      [{ fen := api.fen api.initial, moveIndex := 0, playedMove := none,
         nextMove := none, turn := api.turn api.initial }]
      h (by simp) (by intro e he; simp at he; subst he; exact ⟨rfl, rfl⟩)
      (List.chain'_singleton _)
  rw [buildAnalysisEntriesFromVerbose]
  refine ⟨by rw [hlen]; simp [Nat.add_comm], ?_, hlast, hchain⟩
  intro e he
  rw [Option.mem_def] at he
  rw [he] at hhp hhf
  simp only [List.head?_cons, Option.map_some'] at hhp hhf
  exact ⟨Option.some_inj.mp hhp, Option.some_inj.mp hhf⟩

theorem buildTimeline_shape_witness :
    allLegalB toyApi toyApi.initial
      [{ fromSq := "a2", toSq := "a3", promotion := none },
       { fromSq := "b2", toSq := "b3", promotion := none }] = true
    ∧ (buildAnalysisEntriesFromVerbose toyApi
        [{ fromSq := "a2", toSq := "a3", promotion := none },
         { fromSq := "b2", toSq := "b3", promotion := none }]).length = 3 :=
  ⟨by decide,
   by
    have := (buildTimeline_shape toyApi
      [{ fromSq := "a2", toSq := "a3", promotion := none },
       { fromSq := "b2", toSq := "b3", promotion := none }] (by decide)).1
    simpa using this⟩

/-- C5 counterexample: the claim asserts that the normalized mate-against
score −100000 "ranks below every finite centipawn score" and that a mate for
the mover "outranks every non-mate evaluation"; but the info handler keeps a
centipawn value as its exact integer, so the finite centipawn score −200000
ranks below `score mate -3`, and the finite centipawn score 200000 ranks above
`score mate 3`. -/
theorem mateScore_counterexample :
    normalizeScore ("mate") (-3) = -100000
    ∧ normalizeScore ("cp") (-200000) < normalizeScore ("mate") (-3)
    ∧ normalizeScore ("mate") 3 < normalizeScore ("cp") 200000 := by
  refine ⟨?_, ?_, ?_⟩ <;> decide

/-- C5 amended: a centipawn score is kept as its exact signed integer; a mate
score is normalized to +100000 when positive and −100000 otherwise, regardless
of the mate distance; `score mate -3` (parsed through the actual info-line
pattern) normalizes to −100000; and the mate normalizations dominate every
centipawn score of magnitude below 100000 (not every finite one). -/
theorem mateScore_normalization :
    (∀ v : Int, normalizeScore ("cp") v = v)
    ∧ (∀ v : Int, 0 < v → normalizeScore ("mate") v = 100000)
    ∧ (∀ v : Int, ¬ 0 < v → normalizeScore ("mate") v = -100000)
    ∧ (∀ v : Int, v.natAbs < 100000 →
        normalizeScore ("mate") (-3) < normalizeScore ("cp") v
        ∧ normalizeScore ("cp") v < normalizeScore ("mate") 3)
    ∧ (matchInfo ("info multipv 1 score mate -3 pv e2e4")).map
        (fun q => normalizeScore q.2.1 (parseIntStr q.2.2.1)) = some (-100000) := by
  refine ⟨?_, ?_, ?_, ?_, ?_⟩
  · intro v; rfl
  · intro v h
    rw [normalizeScore, if_neg (by decide), if_pos h]
  · intro v h
    rw [normalizeScore, if_neg (by decide), if_neg h]
  · intro v h
    have h1 : -100000 < v ∧ v < 100000 := by omega
    constructor
    · rw [normalizeScore, if_neg (by decide), if_neg (by decide),
        normalizeScore, if_pos rfl]
      exact h1.1
    · rw [normalizeScore, if_pos rfl, normalizeScore, if_neg (by decide), if_pos (by decide)]
      exact h1.2
  · decide

theorem mateScore_normalization_witness :
    normalizeScore ("mate") 5 = 100000
    ∧ normalizeScore ("mate") (-3) = -100000
    ∧ (normalizeScore ("mate") (-3) < normalizeScore ("cp") (-50)
        ∧ normalizeScore ("cp") (-50) < normalizeScore ("mate") 3) :=
  ⟨mateScore_normalization.2.1 5 (by decide),
   mateScore_normalization.2.2.1 (-3) (by decide),
   mateScore_normalization.2.2.2.1 (-50) (by decide)⟩

theorem floorIndex_lt {r2 : ℚ} {n : Nat} (h0 : 0 ≤ r2) (h1 : r2 < 1) (hn : 0 < n) :
    Int.toNat ⌊r2 * (n : ℚ)⌋ < n := by
  have hnq : (0:ℚ) < (n:ℚ) := by exact_mod_cast hn
  have hlt : r2 * (n:ℚ) < (n:ℚ) := by nlinarith
  have hfl : ⌊r2 * (n:ℚ)⌋ < (n : ℤ) := by
    rw [Int.floor_lt]
    exact_mod_cast hlt
  have hge : 0 ≤ ⌊r2 * (n:ℚ)⌋ := Int.floor_nonneg.mpr (by positivity)
  omega

theorem floorIndex_eq_iff {r2 : ℚ} {n i : Nat} (h0 : 0 ≤ r2) (hn : 0 < n) :
    Int.toNat ⌊r2 * (n : ℚ)⌋ = i ↔ (i : ℚ) / n ≤ r2 ∧ r2 < ((i : ℚ) + 1) / n := by
  have hnq : (0:ℚ) < (n:ℚ) := by exact_mod_cast hn
  have hge : 0 ≤ ⌊r2 * (n:ℚ)⌋ := Int.floor_nonneg.mpr (by positivity)
  constructor
  · intro hi
    have hfi : ⌊r2 * (n:ℚ)⌋ = (i : ℤ) := by omega
    obtain ⟨ha, hb⟩ := Int.floor_eq_iff.mp hfi
    constructor
    · rw [div_le_iff₀ hnq]
      exact_mod_cast ha
    · rw [lt_div_iff₀ hnq]
      push_cast at hb ⊢
      linarith
  · intro hab
    obtain ⟨ha, hb⟩ := hab
    rw [div_le_iff₀ hnq] at ha
    rw [lt_div_iff₀ hnq] at hb
    have : ⌊r2 * (n:ℚ)⌋ = (i:ℤ) := by
      rw [Int.floor_eq_iff]
      constructor
      · exact_mod_cast ha
      · push_cast
        linarith
    omega

theorem getD_last_eq_getLast {α : Type} :
    ∀ (l : List α) (d : α) (h : l ≠ []), l.getD (l.length - 1) d = l.getLast h := by
  intro l
  induction l with
  | nil => intro d h; exact absurd rfl h
  | cons a t ih =>
    intro d h
    cases t with
    | nil => rfl
    | cons b r =>
      have hne : b :: r ≠ [] := by simp
      rw [List.getLast_cons hne, ← ih d hne]
      show (a :: b :: r).getD (r.length + 1) d = (b :: r).getD ((b :: r).length - 1) d
      rw [List.getD_cons_succ]
      simp

/-- C6 counterexample: with four ranked suggestions (sorted descending), a
blunder probability of 1, a draw `r = 0`, and a position with no legal moves
(so the gross-blunder branch cannot fire), the claim says the function returns
the lowest-ranked of the top three — the suggestion with score 20 — but the
code returns `options[options.length - 1]`, the fourth suggestion, whose move
is `d1d2`, not `c1c2`. -/
theorem pickMoveWithBlunder_counterexample :
    pickMoveWithBlunder toyApi ("empty")
      [{ uci := "a1a2", fromSq := "a1", toSq := "a2", score := 40, san := "a" },
       { uci := "b1b2", fromSq := "b1", toSq := "b2", score := 30, san := "b" },
       { uci := "c1c2", fromSq := "c1", toSq := "c2", score := 20, san := "c" },
       { uci := "d1d2", fromSq := "d1", toSq := "d2", score := 10, san := "d" }] 1 0 0
      = some ("d1d2")
    ∧ some ("d1d2") ≠ some ("c1c2") := by
  constructor
  · have h1 : toyApi.parse ("empty") = some 100 := by decide
    have h2 : toyApi.moves 100 = [] := by decide
    rw [pickMoveWithBlunder, h1]
    simp only [h2]
    norm_num
  · decide

/-- C6 amended: `pickMoveWithBlunder` returns null on an empty suggestion list
regardless of the draws; otherwise, when `r < 0.4·p` and legal moves exist it
returns the legal move indexed by `⌊r2·n⌋` — each index being drawn exactly
when the uniform value `r2` falls in its own interval of length `1/n`, i.e. a
uniformly random legal move; else when `r < p` and at least two suggestions
exist it returns the last suggestion of the whole list (the lowest-ranked of
the top three whenever exactly three are present) if `r < 0.7·p` and at least
three suggestions exist, and otherwise the second-best; else it returns the
best suggestion. -/
theorem pickMoveWithBlunder_branches {σ : Type} (api : ChessApi σ) (fen : String) (g : σ)
    (hparse : api.parse fen = some g)
    (options : List Sugg) (p r r2 : ℚ) (h2a : 0 ≤ r2) (h2b : r2 < 1) :
    (options = [] → pickMoveWithBlunder api fen options p r r2 = none)
    ∧ (options ≠ [] → r < p * 0.4 → api.moves g ≠ [] →
        ∃ hidx : Int.toNat ⌊r2 * ((api.moves g).length : ℚ)⌋ < (api.moves g).length,
          pickMoveWithBlunder api fen options p r r2
            = some (uciOfMoveRes ((api.moves g).get
                ⟨Int.toNat ⌊r2 * ((api.moves g).length : ℚ)⌋, hidx⟩))
          ∧ (∀ i : Nat, i < (api.moves g).length →
              (Int.toNat ⌊r2 * ((api.moves g).length : ℚ)⌋ = i ↔
                (i : ℚ) / (api.moves g).length ≤ r2
                ∧ r2 < ((i : ℚ) + 1) / (api.moves g).length)))
    ∧ (options ≠ [] → ¬ (r < p * 0.4 ∧ api.moves g ≠ []) → r < p → 2 ≤ options.length →
        ((r < p * 0.7 ∧ 3 ≤ options.length →
          ∃ hne2 : options ≠ [],
            pickMoveWithBlunder api fen options p r r2 = some (options.getLast hne2).uci)
        ∧ (¬ (r < p * 0.7 ∧ 3 ≤ options.length) →
          ∃ h1 : 1 < options.length,
            pickMoveWithBlunder api fen options p r r2 = some (options.get ⟨1, h1⟩).uci)))
    ∧ (options ≠ [] → ¬ (r < p * 0.4 ∧ api.moves g ≠ []) → ¬ (r < p ∧ 2 ≤ options.length) →
        ∃ hne2 : options ≠ [],
          pickMoveWithBlunder api fen options p r r2 = some (options.head hne2).uci) := by
  have hunfold : pickMoveWithBlunder api fen options p r r2
      = if options.length = 0 then none
        else if r < p * 0.4 ∧ (api.moves g).length ≠ 0 then
          some (uciOfMoveRes ((api.moves g).getD
            (Int.toNat ⌊r2 * ((api.moves g).length : ℚ)⌋) dummyMoveRes))
        else if r < p ∧ 2 ≤ options.length then
          if r < p * 0.7 ∧ 3 ≤ options.length then
            some (options.getD (options.length - 1) dummySugg).uci
          else some (options.getD 1 dummySugg).uci
        else some (options.getD 0 dummySugg).uci := by
    rw [pickMoveWithBlunder, hparse]
  refine ⟨?_, ?_, ?_, ?_⟩
  · intro h
    subst h
    rfl
  · intro hne hr hlm
    have hlen : (api.moves g).length ≠ 0 := by
      simpa [List.length_eq_zero] using hlm
    have hpos : 0 < (api.moves g).length := Nat.pos_of_ne_zero hlen
    have hidx := floorIndex_lt h2a h2b hpos
    refine ⟨hidx, ?_, ?_⟩
    · rw [hunfold, if_neg (by simpa [List.length_eq_zero] using hne), if_pos ⟨hr, hlen⟩,
        List.getD_eq_getElem _ _ hidx]
      rfl
    · intro i hi
      exact floorIndex_eq_iff h2a hpos
  · intro hne hnot hr hlen2
    have hOnot : ¬ (r < p * 0.4 ∧ (api.moves g).length ≠ 0) := by
      intro hcon
      exact hnot ⟨hcon.1, by simpa [List.length_eq_zero] using hcon.2⟩
    constructor
    · intro hin
      refine ⟨hne, ?_⟩
      rw [hunfold, if_neg (by simpa [List.length_eq_zero] using hne), if_neg hOnot,
        if_pos ⟨hr, hlen2⟩, if_pos hin, getD_last_eq_getLast options dummySugg hne]
    · intro hin
      have h1 : 1 < options.length := by omega
      refine ⟨h1, ?_⟩
      rw [hunfold, if_neg (by simpa [List.length_eq_zero] using hne), if_neg hOnot,
        if_pos ⟨hr, hlen2⟩, if_neg hin, List.getD_eq_getElem _ _ h1]
      rfl
  · intro hne hnot hnot2
    have hOnot : ¬ (r < p * 0.4 ∧ (api.moves g).length ≠ 0) := by
      intro hcon
      exact hnot ⟨hcon.1, by simpa [List.length_eq_zero] using hcon.2⟩
    refine ⟨hne, ?_⟩
    rw [hunfold, if_neg (by simpa [List.length_eq_zero] using hne), if_neg hOnot,
      if_neg hnot2]
    cases options with
    | nil => exact absurd rfl hne
    | cons a t => rfl

theorem pickMoveWithBlunder_branches_witness :
    pickMoveWithBlunder toyApi ("pos")
      [{ uci := "a1a2", fromSq := "a1", toSq := "a2", score := 40, san := "a" },
       { uci := "b1b2", fromSq := "b1", toSq := "b2", score := 30, san := "b" }]
      1 (1/2 : ℚ) (1/2 : ℚ)
      = some ("b1b2") := by
  have h := (pickMoveWithBlunder_branches toyApi ("pos") 0 (by decide)
    [{ uci := "a1a2", fromSq := "a1", toSq := "a2", score := 40, san := "a" },
     { uci := "b1b2", fromSq := "b1", toSq := "b2", score := 30, san := "b" }]
    1 (1/2 : ℚ) (1/2 : ℚ) (by norm_num) (by norm_num)).2.2.1
    (by simp) (by intro hcon; norm_num at hcon) (by norm_num) (by norm_num)
  obtain ⟨-, h2⟩ := h
  obtain ⟨h1, he⟩ := h2 (by intro hcon; norm_num at hcon)
  exact he

theorem findProc_mem : ∀ {l : List Proc} {rid : Nat} {p : Proc},
    findProc l rid = some p → p ∈ l := by
  intro l
  induction l with
  | nil => intro rid p h; exact absurd h (by simp [findProc])
  | cons q t ih =>
    intro rid p h
    rw [findProc] at h
    by_cases hq : q.rid = rid
    · rw [if_pos hq] at h
      exact (Option.some_inj.mp h) ▸ List.mem_cons_self q t
    · rw [if_neg hq] at h
      exact List.mem_cons_of_mem q (ih h)

theorem findProc_rid : ∀ {l : List Proc} {rid : Nat} {p : Proc},
    findProc l rid = some p → p.rid = rid := by
  intro l
  induction l with
  | nil => intro rid p h; exact absurd h (by simp [findProc])
  | cons q t ih =>
    intro rid p h
    rw [findProc] at h
    by_cases hq : q.rid = rid
    · rw [if_pos hq] at h
      rw [← Option.some_inj.mp h]
      exact hq
    · rw [if_neg hq] at h
      exact ih h

theorem mem_removeProc : ∀ {l : List Proc} {rid : Nat} {x : Proc},
    x ∈ removeProc l rid → x ∈ l := by
  intro l
  induction l with
  | nil => intro rid x h; simpa [removeProc] using h
  | cons q t ih =>
    intro rid x h
    rw [removeProc] at h
    by_cases hq : q.rid = rid
    · rw [if_pos hq] at h
      exact List.mem_cons_of_mem q h
    · rw [if_neg hq] at h
      rcases List.mem_cons.mp h with h1 | h2
      · exact h1 ▸ List.mem_cons_self q t
      · exact List.mem_cons_of_mem q (ih h2)

theorem mem_mapProc {f : Proc → Proc} :
    ∀ {l : List Proc} {rid : Nat} {x : Proc},
      x ∈ mapProc f l rid → (∀ p, (f p).rid = p.rid ∧ (f p).fen = p.fen) →
      ∃ p ∈ l, p.rid = x.rid ∧ p.fen = x.fen := by
  intro l
  induction l with
  | nil => intro rid x h hf; simpa [mapProc] using h
  | cons q t ih =>
    intro rid x h hf
    rw [mapProc] at h
    by_cases hq : q.rid = rid
    · rw [if_pos hq] at h
      rcases List.mem_cons.mp h with h1 | h2
      · exact ⟨q, List.mem_cons_self q t, by rw [h1]; exact (hf q).1.symm,
          by rw [h1]; exact (hf q).2.symm⟩
      · exact ⟨x, List.mem_cons_of_mem q h2, rfl, rfl⟩
    · rw [if_neg hq] at h
      rcases List.mem_cons.mp h with h1 | h2
      · exact ⟨q, List.mem_cons_self q t, by rw [h1], by rw [h1]⟩
      · obtain ⟨p, hp, h3, h4⟩ := ih h2 hf
        exact ⟨p, List.mem_cons_of_mem q hp, h3, h4⟩

theorem cacheGet_cacheSet (k : String) (v : List Sugg) :
    ∀ c : List (String × List Sugg), cacheGet (cacheSet c k v) k = some v := by
  intro c
  induction c with
  | nil => simp [cacheSet, cacheGet]
  | cons kv t ih =>
    obtain ⟨k', v'⟩ := kv
    rw [cacheSet]
    by_cases hk : k' = k
    · rw [if_pos hk, cacheGet, if_pos rfl]
    · rw [if_neg hk, cacheGet, if_neg hk]
      exact ih

theorem resumeReady_counter (s : MState) (rid : Nat) :
    (resumeReady s rid).counter = s.counter ∧ (resumeReady s rid).lastFen = s.lastFen := by
  rw [resumeReady]
  cases hf : findProc s.procs rid with
  | none => exact ⟨rfl, rfl⟩
  | some p =>
    obtain ⟨prid, pfen, ph, pacc⟩ := p
    cases ph <;> dsimp only
    · exact ⟨rfl, rfl⟩
    · split_ifs <;> exact ⟨rfl, rfl⟩
    · exact ⟨rfl, rfl⟩
    · split_ifs <;> exact ⟨rfl, rfl⟩

theorem resumeReady_procs (s : MState) (rid : Nat) :
    ∀ x ∈ (resumeReady s rid).procs, ∃ p ∈ s.procs, p.rid = x.rid ∧ p.fen = x.fen := by
  intro x hx
  rw [resumeReady] at hx
  revert hx
  cases hf : findProc s.procs rid with
  | none => intro hx; exact ⟨x, hx, rfl, rfl⟩
  | some p =>
    obtain ⟨prid, pfen, ph, pacc⟩ := p
    cases ph <;> dsimp only
    · intro hx; exact ⟨x, hx, rfl, rfl⟩
    · split_ifs <;> intro hx
      · exact ⟨x, mem_removeProc hx, rfl, rfl⟩
      · dsimp only at hx
        exact mem_mapProc hx (fun p => ⟨rfl, rfl⟩)
    · intro hx; exact ⟨x, hx, rfl, rfl⟩
    · split_ifs <;> intro hx <;> exact ⟨x, mem_removeProc hx, rfl, rfl⟩

theorem resumeReady_output (s : MState) (rid : Nat)
    (h : (resumeReady s rid).output ≠ s.output) :
    ∃ p ∈ s.procs, p.rid = s.counter ∧ s.lastFen = some p.fen := by
  rw [resumeReady] at h
  revert h
  cases hf : findProc s.procs rid with
  | none => intro h; exact absurd rfl h
  | some p =>
    have hmem := findProc_mem hf
    have hrid := findProc_rid hf
    obtain ⟨prid, pfen, ph, pacc⟩ := p
    cases ph <;> dsimp only
    · intro h; exact absurd rfl h
    · split_ifs <;> intro h <;> exact absurd rfl h
    · intro h; exact absurd rfl h
    · split_ifs with hc hl <;> intro h
      · exact ⟨⟨prid, pfen, Phase.waitingReady2, pacc⟩, hmem, by rw [hc]; exact hrid, hl⟩
      · exact absurd rfl h
      · exact absurd rfl h

theorem resumeReady_stale (s : MState) (rid : Nat) (p : Proc)
    (hf : findProc s.procs rid = some p)
    (hstale : p.rid ≠ s.counter ∨ s.lastFen ≠ some p.fen) :
    (resumeReady s rid).output = s.output := by
  have hrid := findProc_rid hf
  rw [resumeReady, hf]
  obtain ⟨prid, pfen, ph, pacc⟩ := p
  cases ph
  · rfl
  · dsimp only
    split_ifs <;> rfl
  · rfl
  · dsimp only
    split_ifs with hc hl
    · exfalso
      rcases hstale with h1 | h2
      · exact h1 (by rw [hc]; exact hrid)
      · exact h2 hl
    · rfl
    · rfl

theorem applyInfo_fields {σ : Type} (api : ChessApi σ) (s : MState) (line : String) :
    (applyInfo api s line).counter = s.counter
    ∧ (applyInfo api s line).lastFen = s.lastFen
    ∧ (applyInfo api s line).output = s.output := by
  rw [applyInfo]
  cases hi : s.infoProc with
  | none => exact ⟨rfl, rfl, rfl⟩
  | some rid =>
    dsimp only
    cases hf : findProc s.procs rid with
    | none => exact ⟨rfl, rfl, rfl⟩
    | some p =>
      dsimp only
      cases hm : matchInfo line with
      | none => exact ⟨rfl, rfl, rfl⟩
      | some q =>
        obtain ⟨a, b, c, d⟩ := q
        dsimp only
        split_ifs <;> exact ⟨rfl, rfl, rfl⟩

theorem applyInfo_procs {σ : Type} (api : ChessApi σ) (s : MState) (line : String) :
    ∀ x ∈ (applyInfo api s line).procs, ∃ p ∈ s.procs, p.rid = x.rid ∧ p.fen = x.fen := by
  intro x hx
  rw [applyInfo] at hx
  revert hx
  cases hi : s.infoProc with
  | none => intro hx; exact ⟨x, hx, rfl, rfl⟩
  | some rid =>
    dsimp only
    cases hf : findProc s.procs rid with
    | none => intro hx; exact ⟨x, hx, rfl, rfl⟩
    | some p =>
      dsimp only
      cases hm : matchInfo line with
      | none => intro hx; exact ⟨x, hx, rfl, rfl⟩
      | some q =>
        obtain ⟨a, b, c, d⟩ := q
        dsimp only
        split_ifs <;> intro hx
        · exact ⟨x, hx, rfl, rfl⟩
        · dsimp only at hx
          exact mem_mapProc hx (fun p => ⟨rfl, rfl⟩)

theorem applyBest_fields (s : MState) :
    (applyBest s).counter = s.counter
    ∧ (applyBest s).lastFen = s.lastFen
    ∧ (applyBest s).output = s.output := by
  rw [applyBest]
  cases hb : s.bestProc with
  | none => exact ⟨rfl, rfl, rfl⟩
  | some rid =>
    dsimp only
    cases hf : findProc s.procs rid with
    | none => exact ⟨rfl, rfl, rfl⟩
    | some p =>
      dsimp only
      split_ifs <;> exact ⟨rfl, rfl, rfl⟩

theorem applyBest_procs (s : MState) :
    ∀ x ∈ (applyBest s).procs, ∃ p ∈ s.procs, p.rid = x.rid ∧ p.fen = x.fen := by
  intro x hx
  rw [applyBest] at hx
  revert hx
  cases hb : s.bestProc with
  | none => intro hx; exact ⟨x, hx, rfl, rfl⟩
  | some rid =>
    dsimp only
    cases hf : findProc s.procs rid with
    | none => intro hx; exact ⟨x, hx, rfl, rfl⟩
    | some p =>
      dsimp only
      split_ifs <;> intro hx
      · exact ⟨x, mem_removeProc hx, rfl, rfl⟩
      · dsimp only at hx
        exact mem_mapProc hx (fun p => ⟨rfl, rfl⟩)
      · exact ⟨x, hx, rfl, rfl⟩

theorem doPollIdle_fields (s : MState) (rid : Nat) :
    (doPollIdle s rid).counter = s.counter
    ∧ (doPollIdle s rid).lastFen = s.lastFen
    ∧ (doPollIdle s rid).output = s.output := by
  rw [doPollIdle]
  cases hf : findProc s.procs rid with
  | none => exact ⟨rfl, rfl, rfl⟩
  | some p =>
    dsimp only
    split_ifs <;> exact ⟨rfl, rfl, rfl⟩

theorem doPollIdle_procs (s : MState) (rid : Nat) :
    ∀ x ∈ (doPollIdle s rid).procs, ∃ p ∈ s.procs, p.rid = x.rid ∧ p.fen = x.fen := by
  intro x hx
  rw [doPollIdle] at hx
  revert hx
  cases hf : findProc s.procs rid with
  | none => intro hx; exact ⟨x, hx, rfl, rfl⟩
  | some p =>
    dsimp only
    split_ifs <;> intro hx
    · exact ⟨x, mem_removeProc hx, rfl, rfl⟩
    · exact mem_mapProc hx (fun p => ⟨rfl, rfl⟩)
    · exact ⟨x, hx, rfl, rfl⟩

theorem foldResume_counter :
    ∀ (q : List Nat) (s : MState),
      (q.foldl resumeReady s).counter = s.counter
      ∧ (q.foldl resumeReady s).lastFen = s.lastFen := by
  intro q
  induction q with
  | nil => intro s; exact ⟨rfl, rfl⟩
  | cons rid rest ih =>
    intro s
    rw [List.foldl_cons]
    obtain ⟨h1, h2⟩ := ih (resumeReady s rid)
    obtain ⟨h3, h4⟩ := resumeReady_counter s rid
    exact ⟨h1.trans h3, h2.trans h4⟩

theorem foldResume_procs :
    ∀ (q : List Nat) (s : MState) (x : Proc),
      x ∈ (q.foldl resumeReady s).procs → ∃ p ∈ s.procs, p.rid = x.rid ∧ p.fen = x.fen := by
  intro q
  induction q with
  | nil => intro s x hx; exact ⟨x, hx, rfl, rfl⟩
  | cons rid rest ih =>
    intro s x hx
    rw [List.foldl_cons] at hx
    obtain ⟨y, hy, hy1, hy2⟩ := ih (resumeReady s rid) x hx
    obtain ⟨p, hp, hp1, hp2⟩ := resumeReady_procs s rid y hy
    exact ⟨p, hp, hp1.trans hy1, hp2.trans hy2⟩

theorem foldResume_output :
    ∀ (q : List Nat) (s : MState),
      (q.foldl resumeReady s).output ≠ s.output →
      ∃ p ∈ s.procs, p.rid = s.counter ∧ s.lastFen = some p.fen := by
  intro q
  induction q with
  | nil => intro s h; exact absurd rfl h
  | cons rid rest ih =>
    intro s h
    rw [List.foldl_cons] at h
    by_cases hmid : (resumeReady s rid).output = s.output
    · obtain ⟨p, hp, hp1, hp2⟩ := ih (resumeReady s rid) (fun hcon => h (hcon.trans hmid))
      obtain ⟨h3, h4⟩ := resumeReady_counter s rid
      obtain ⟨p0, hp0, hq1, hq2⟩ := resumeReady_procs s rid p hp
      rw [h4] at hp2
      refine ⟨p0, hp0, by rw [hq1, hp1, h3], by rw [hq2]; exact hp2⟩
    · exact resumeReady_output s rid hmid

theorem step_noload_counter {σ : Type} (api : ChessApi σ) (s : MState) (a : Act)
    (ha : isLoad a = false) :
    (step api s a).counter = s.counter ∧ (step api s a).lastFen = s.lastFen := by
  cases a with
  | load fen => exact absurd ha (by simp [isLoad])
  | pollIdle rid =>
    obtain ⟨h1, h2, _⟩ := doPollIdle_fields s rid
    exact ⟨h1, h2⟩
  | engineLine line =>
    show (engineLine api s line).counter = s.counter ∧ (engineLine api s line).lastFen = s.lastFen
    rw [engineLine]
    by_cases h1 : line = "uciok"
    · rw [if_pos h1]; exact ⟨rfl, rfl⟩
    · rw [if_neg h1]
      by_cases h2 : line = "readyok"
      · rw [if_pos h2]
        exact foldResume_counter s.readyQueue _
      · rw [if_neg h2]
        dsimp only
        have hs1 : (if strStarts line ("info") = true then applyInfo api s line else s).counter
              = s.counter
            ∧ (if strStarts line ("info") = true then applyInfo api s line else s).lastFen
              = s.lastFen := by
          split_ifs with h3
          · obtain ⟨hi1, hi2, _⟩ := applyInfo_fields api s line
            exact ⟨hi1, hi2⟩
          · exact ⟨rfl, rfl⟩
        by_cases h4 : strStarts line ("bestmove") = true
        · rw [if_pos h4]
          obtain ⟨hb1, hb2, _⟩ :=
            applyBest_fields (if strStarts line ("info") = true then applyInfo api s line else s)
          rw [hb1, hb2]
          exact hs1
        · rw [if_neg h4]
          exact hs1

theorem step_noload_procs {σ : Type} (api : ChessApi σ) (s : MState) (a : Act)
    (ha : isLoad a = false) :
    ∀ x ∈ (step api s a).procs, ∃ p ∈ s.procs, p.rid = x.rid ∧ p.fen = x.fen := by
  intro x hx
  cases a with
  | load fen => exact absurd ha (by simp [isLoad])
  | pollIdle rid => exact doPollIdle_procs s rid x hx
  | engineLine line =>
    rw [step, engineLine] at hx
    revert hx
    by_cases h1 : line = "uciok"
    · rw [if_pos h1]; intro hx; exact ⟨x, hx, rfl, rfl⟩
    · rw [if_neg h1]
      by_cases h2 : line = "readyok"
      · rw [if_pos h2]
        intro hx
        dsimp only at hx
        obtain ⟨p, hp, h5, h6⟩ := foldResume_procs s.readyQueue
          { s with readyQueue := [], engineReady := true } x hx
        exact ⟨p, hp, h5, h6⟩
      · rw [if_neg h2]
        dsimp only
        have hs1 : ∀ y ∈ (if strStarts line ("info") = true then applyInfo api s line else s).procs,
            ∃ p ∈ s.procs, p.rid = y.rid ∧ p.fen = y.fen := by
          split_ifs with h3
          · exact applyInfo_procs api s line
          · intro y hy; exact ⟨y, hy, rfl, rfl⟩
        by_cases h4 : strStarts line ("bestmove") = true
        · rw [if_pos h4]
          intro hx
          obtain ⟨y, hy, hy1, hy2⟩ :=
            applyBest_procs (if strStarts line ("info") = true then applyInfo api s line else s)
              x hx
          obtain ⟨p, hp, hp1, hp2⟩ := hs1 y hy
          exact ⟨p, hp, hp1.trans hy1, hp2.trans hy2⟩
        · rw [if_neg h4]
          intro hx
          exact hs1 x hx

theorem step_noload_output {σ : Type} (api : ChessApi σ) (s : MState) (a : Act)
    (ha : isLoad a = false)
    (h : (step api s a).output ≠ s.output) :
    ∃ p ∈ s.procs, p.rid = s.counter ∧ s.lastFen = some p.fen := by
  cases a with
  | load fen => exact absurd ha (by simp [isLoad])
  | pollIdle rid =>
    exact absurd (doPollIdle_fields s rid).2.2 h
  | engineLine line =>
    rw [step, engineLine] at h
    revert h
    by_cases h1 : line = "uciok"
    · rw [if_pos h1]; intro h; exact absurd rfl h
    · rw [if_neg h1]
      by_cases h2 : line = "readyok"
      · rw [if_pos h2]
        intro h
        have h0 := foldResume_output s.readyQueue
          { s with readyQueue := [], engineReady := true } (by exact h)
        simpa using h0
      · rw [if_neg h2]
        dsimp only
        have hs1 : (if strStarts line ("info") = true then applyInfo api s line else s).output
            = s.output := by
          split_ifs with h3
          · exact (applyInfo_fields api s line).2.2
          · rfl
        by_cases h4 : strStarts line ("bestmove") = true
        · rw [if_pos h4]
          intro h
          exfalso
          have hb := (applyBest_fields
            (if strStarts line ("info") = true then applyInfo api s line else s)).2.2
          rw [hb] at h
          exact h hs1
        · rw [if_neg h4]
          intro h
          exact absurd hs1 h

theorem run_noload_output {σ : Type} (api : ChessApi σ) :
    ∀ (acts : List Act) (s : MState),
      (∀ a ∈ acts, isLoad a = false) →
      (run api s acts).output ≠ s.output →
      ∃ p ∈ s.procs, p.rid = s.counter ∧ s.lastFen = some p.fen := by
  intro acts
  induction acts with
  | nil => intro s _ h; exact absurd rfl h
  | cons a rest ih =>
    intro s hno h
    have ha : isLoad a = false := hno a (List.mem_cons_self a rest)
    rw [run] at h
    by_cases hmid : (step api s a).output = s.output
    · obtain ⟨p, hp, hp1, hp2⟩ := ih (step api s a)
        (fun b hb => hno b (List.mem_cons_of_mem a hb))
        (fun hcon => h (hcon.trans hmid))
      obtain ⟨h3, h4⟩ := step_noload_counter api s a ha
      obtain ⟨p0, hp0, hq1, hq2⟩ := step_noload_procs api s a ha p hp
      rw [h4] at hp2
      refine ⟨p0, hp0, by rw [hq1, hp1, h3], by rw [hq2]; exact hp2⟩
    · exact step_noload_output api s a ha hmid

/-- C1 counterexample: navigate to `fenB` and let its request complete, then
navigate to `fenA` (request A in flight), then navigate back to `fenB` before
A resolves — at that point the visible suggestions are B's cached result — and
then let A's engine computation finish.  A's completion passes both the
generation re-check (the cache-served navigation never allocated a generation)
and the last-requested-position check (the cache-served navigation never
updated it), so A's result overwrites the output even though the latest
navigation request was B: the externally visible suggestions end up as A's,
refuting the claim for cache-served follow-up navigations. -/
theorem preemption_counterexample :
    (run nullApi initState actsPreemptPre).output = [sugg30]
    ∧ (run nullApi initState actsPreempt).output = [sugg50]
    ∧ sugg50 ≠ sugg30 := by
  refine ⟨by decide, by decide, by decide⟩

/-- C1 (amended): a completion whose generation id differs from the
coordinator's current generation counter, or whose position differs from the
last-requested position, never writes to the current-suggestions output
(first conjunct: the commit continuation of a superseded request leaves the
output untouched).  Consequently — second conjunct — in any run containing no
further navigation requests, the output can only change if some already
in-flight request carries both the current generation id and the
last-requested position; since a cache-missing `loadSuggestions(B)` advances
the generation past every earlier request, B's result (or a later request's)
is what the output reflects, never A's.  When B is served from the cache,
however, the generation and last-requested position are unchanged and an
in-flight older request may overwrite B's result on completion (see the
counterexample). -/
theorem staleCompletion_never_writes {σ : Type} (api : ChessApi σ) :
    (∀ (s : MState) (rid : Nat) (p : Proc), findProc s.procs rid = some p →
      p.rid ≠ s.counter ∨ s.lastFen ≠ some p.fen →
      (resumeReady s rid).output = s.output)
    ∧ (∀ (s : MState) (acts : List Act), (∀ a ∈ acts, isLoad a = false) →
        (run api s acts).output ≠ s.output →
        ∃ p ∈ s.procs, p.rid = s.counter ∧ s.lastFen = some p.fen) :=
  ⟨fun s rid p hf hstale => resumeReady_stale s rid p hf hstale,
   fun s acts hno h => run_noload_output api acts s hno h⟩

theorem staleCompletion_never_writes_witness :
    (resumeReady
        { initState with
            counter := 2
            lastFen := some ("other")
            output := [sugg30]
            procs := [{ rid := 1, fen := "f", phase := Phase.waitingReady2,
                        acc := [some sugg50] }] } 1).output = [sugg30]
    ∧ (∃ p ∈ ({ initState with
            counter := 1
            lastFen := some ("f")
            output := []
            readyQueue := [1]
            procs := [{ rid := 1, fen := "f", phase := Phase.waitingReady2,
                        acc := [some sugg50] }] } : MState).procs,
        p.rid = 1 ∧ (some ("f") : Option String) = some p.fen) :=
  ⟨(staleCompletion_never_writes nullApi).1
      { initState with
          counter := 2
          lastFen := some ("other")
          output := [sugg30]
          procs := [{ rid := 1, fen := "f", phase := Phase.waitingReady2,
                      acc := [some sugg50] }] } 1
      { rid := 1, fen := "f", phase := Phase.waitingReady2, acc := [some sugg50] }
      (by decide) (Or.inl (by decide)),
   (staleCompletion_never_writes nullApi).2
      { initState with
          counter := 1
          lastFen := some ("f")
          output := []
          readyQueue := [1]
          procs := [{ rid := 1, fen := "f", phase := Phase.waitingReady2,
                      acc := [some sugg50] }] }
      [Act.engineLine ("readyok")]
      (by intro a ha; simp at ha; rw [ha]; rfl)
      (by decide)⟩

/-- C9: (1) a `loadSuggestions` call for a position already in the Suggestion
Cache is served entirely from the cache — the resulting state differs from the
caller's only in the visible suggestions (set to the cached list) and the
loading flag; in particular nothing is appended to the engine command log and
the generation counter does not move.  (2) The commit continuation of a
still-current request writes the same list to the visible output and to the
cache, so the list a second call serves from the cache is the list the first
call produced.  (3) End to end: a full round trip for `fenA` followed by a
second `loadSuggestions(fenA)` yields the same suggestion list both times and
issues exactly one `go` command in total. -/
theorem cache_idempotence {σ : Type} (api : ChessApi σ) :
    (∀ (s : MState) (fen : String) (l : List Sugg),
      s.engineReady = true → cacheGet s.cache fen = some l →
      step api s (Act.load fen) = { s with output := l, loading := false })
    ∧ (∀ (s : MState) (rid : Nat) (p : Proc),
        findProc s.procs rid = some p → p.phase = Phase.waitingReady2 →
        s.counter = rid → s.lastFen = some p.fen →
        (resumeReady s rid).output = compactSort p.acc
        ∧ cacheGet (resumeReady s rid).cache p.fen = some (compactSort p.acc))
    ∧ (run nullApi initState actsTwice).output = [sugg50, sugg30]
    ∧ cacheGet (run nullApi initState actsTwice).cache fenA = some [sugg50, sugg30]
    ∧ countGo (run nullApi initState actsTwice).sent = 1 := by
  refine ⟨?_, ?_, by decide, by decide, by decide⟩
  · intro s fen l h hc
    show doLoad s fen = _
    rw [doLoad, h]
    simp only [Bool.true_eq_false, if_false, hc]
  · intro s rid p hf hp hc hl
    rw [resumeReady, hf]
    obtain ⟨prid, pfen, ph, pacc⟩ := p
    simp only [] at hp
    subst hp
    dsimp only
    rw [if_pos hc]
    simp only [] at hl
    rw [if_pos hl]
    exact ⟨rfl, cacheGet_cacheSet pfen (compactSort pacc) (cacheSet s.cache pfen (compactSort pacc)) ▸
      cacheGet_cacheSet pfen (compactSort pacc) s.cache⟩

theorem cache_idempotence_witness :
    step nullApi
        { initState with engineReady := true, cache := [(fenA, [sugg50])] }
        (Act.load fenA)
      = { initState with
          engineReady := true
          cache := [(fenA, [sugg50])]
          output := [sugg50]
          loading := false }
    ∧ ((resumeReady
          { initState with
              counter := 1
              lastFen := some ("f")
              procs := [{ rid := 1, fen := "f", phase := Phase.waitingReady2,
                          acc := [some sugg50] }] } 1).output
        = compactSort [some sugg50]
      ∧ cacheGet (resumeReady
          { initState with
              counter := 1
              lastFen := some ("f")
              procs := [{ rid := 1, fen := "f", phase := Phase.waitingReady2,
                          acc := [some sugg50] }] } 1).cache ("f")
        = some (compactSort [some sugg50])) :=
  ⟨(cache_idempotence nullApi).1
      { initState with engineReady := true, cache := [(fenA, [sugg50])] }
      fenA [sugg50] (by decide) (by decide),
   (cache_idempotence nullApi).2.1
      { initState with
          counter := 1
          lastFen := some ("f")
          procs := [{ rid := 1, fen := "f", phase := Phase.waitingReady2,
                      acc := [some sugg50] }] } 1
      { rid := 1, fen := "f", phase := Phase.waitingReady2, acc := [some sugg50] }
      (by decide) rfl rfl rfl⟩

theorem insertDesc_perm (a : Sugg) : ∀ l : List Sugg, (insertDesc a l).Perm (a :: l) := by
  intro l
  induction l with
  | nil => exact List.Perm.refl _
  | cons b t ih =>
    rw [insertDesc]
    split_ifs with h
    · exact List.Perm.refl _
    · exact (List.Perm.cons b ih).trans (List.Perm.swap a b t)

theorem sortDesc_perm : ∀ l : List Sugg, (sortDesc l).Perm l := by
  intro l
  induction l with
  | nil => exact List.Perm.refl _
  | cons a t ih =>
    rw [sortDesc]
    exact (insertDesc_perm a (sortDesc t)).trans (List.Perm.cons a ih)

theorem pairwise_insertDesc (a : Sugg) :
    ∀ l : List Sugg, List.Pairwise (fun x y : Sugg => y.score ≤ x.score) l →
      List.Pairwise (fun x y : Sugg => y.score ≤ x.score) (insertDesc a l) := by
  intro l
  induction l with
  | nil => intro _; simp [insertDesc]
  | cons b t ih =>
    intro h
    obtain ⟨hb, ht⟩ := List.pairwise_cons.mp h
    rw [insertDesc]
    split_ifs with hab
    · have hab' : b.score ≤ a.score := by
        simpa [suggDescLe] using hab
      refine List.pairwise_cons.mpr ⟨?_, h⟩
      intro y hy
      rcases List.mem_cons.mp hy with h1 | h2
      · rw [h1]; exact hab'
      · exact le_trans (hb y h2) hab'
    · have hba : a.score < b.score := by
        have := hab
        simp only [suggDescLe] at this
        exact lt_of_not_le (by simpa using this)
      refine List.pairwise_cons.mpr ⟨?_, ih ht⟩
      intro y hy
      have hy' := (insertDesc_perm a t).mem_iff.mp hy
      rcases List.mem_cons.mp hy' with h1 | h2
      · rw [h1]; exact le_of_lt hba
      · exact hb y h2

theorem sortDesc_pairwise :
    ∀ l : List Sugg, List.Pairwise (fun x y : Sugg => y.score ≤ x.score) (sortDesc l) := by
  intro l
  induction l with
  | nil => exact List.Pairwise.nil
  | cons a t ih =>
    rw [sortDesc]
    exact pairwise_insertDesc a (sortDesc t) ih

/-- C4: the suggestion list a ranked-suggestions request returns is the
compaction of the sparse rank-indexed accumulator — a permutation of exactly
the ranks whose info line was present and parseable — sorted descending by
normalized score; and on the scenario trace (lineCount 3, engine replies
`info ... multipv 1 ... cp 50 ... pv e2e4`, `info ... multipv 2 ... cp 30 ...
pv d2d4`, `bestmove`), the externally visible result is exactly two
suggestions, e2e4 with score 50 first and d2d4 with score 30 second. -/
theorem rankedSuggestions_sorted :
    (∀ acc : List (Option Sugg), (compactSort acc).Perm (acc.filterMap id))
    ∧ (∀ acc : List (Option Sugg),
        List.Pairwise (fun x y : Sugg => y.score ≤ x.score) (compactSort acc))
    ∧ (run nullApi initState actsScenario).output = [sugg50, sugg30]
    ∧ sugg50.uci = "e2e4" ∧ sugg50.score = 50 ∧ sugg30.uci = "d2d4" ∧ sugg30.score = 30 := by
  refine ⟨?_, ?_, by decide, rfl, rfl, rfl, rfl⟩
  · intro acc
    exact sortDesc_perm (acc.filterMap id)
  · intro acc
    exact sortDesc_pairwise (acc.filterMap id)
